import Mathlib

/-!
Verification of the core search components of the obsidian-natural-link
plugin: the tokenizer (src/search/tokenizer.ts), the Russian stemmer
wrapper (russian-stemmer.ts), the notes index (notes-index.ts), the
recent-notes booster (recent-notes.ts) and the query parser
(src/ui/query-parser.ts).

Strings are modelled as lists of characters (`Str`); the JavaScript
number type is modelled by `ℚ` for scores (the score arithmetic uses
only small exact decimal constants) and by `ℤ` for timestamps.  The
external Snowball stemming algorithm is treated as an opaque parameter,
exactly as the spec treats it (a pluggable capability).
-/

/-- Strings are modelled as lists of characters. -/
abbrev Str := List Char

/-! ### Tokenizer (src/search/tokenizer.ts) -/

/-- Word characters of the tokenizer: the complement of the split regex
`[^a-zA-Zа-яёА-ЯЁ0-9]+`. -/
def isWordChar (c : Char) : Bool :=
  (('a' ≤ c && c ≤ 'z') || ('A' ≤ c && c ≤ 'Z') || ('0' ≤ c && c ≤ '9')
    || ('а' ≤ c && c ≤ 'я') || ('А' ≤ c && c ≤ 'Я') || c = 'ё' || c = 'Ё')

/-- JavaScript `toLowerCase`, restricted to the alphabets the tokenizer
keeps (ASCII letters, Cyrillic letters, digits); characters outside the
supported ranges are separators both before and after case folding, so
mapping them to themselves is faithful for tokenization. -/
def toLowerChar (c : Char) : Char :=
  if 'A' ≤ c && c ≤ 'Z' then Char.ofNat (c.toNat + 32)
  else if 'А' ≤ c && c ≤ 'Я' then Char.ofNat (c.toNat + 32)
  else if c = 'Ё' then 'ё'
  else c

/-- `tokenize` from src/search/tokenizer.ts: lowercase the text, split on
runs of non-word characters, drop empty tokens.  Splitting on runs and
dropping empties equals splitting at every separator character and
dropping empties. -/
def tokenize (text : Str) : List Str :=
  ((text.map toLowerChar).splitOnP (fun c => !(isWordChar c))).filter
    (fun t => 0 < t.length)

/-! ### Russian stemmer (russian-stemmer.ts) -/

/-- One character of `normalizeYo`: ё → е and Ё → Е. -/
def yoChar (c : Char) : Char :=
  if c = 'ё' then 'е' else if c = 'Ё' then 'Е' else c

/-- `normalizeYo` from russian-stemmer.ts: replace every ё by е and
every Ё by Е (the JS regexes /ё/g and /Ё/g act on each character). -/
def normalizeYo (word : Str) : Str := word.map yoChar

/-- `RussianStemmer.stem`: a single stem, the Snowball Russian stem of
the yo-normalized word.  The external Snowball algorithm is a parameter. -/
def russianStem (snowball : Str → Str) (word : Str) : List Str :=
  [snowball (normalizeYo word)]

/-- The substitution described by the spec and claim C8: the same word
with every ё replaced by е and every Ё by Е. -/
def yeSubstituted (word : Str) : Str :=
  word.map (fun c => if c = 'ё' then 'е' else if c = 'Ё' then 'Е' else c)
/-! ### Query parser (src/ui/query-parser.ts) -/

/-- `ParsedQuery` from query-parser.ts. -/
structure ParsedQuery where
  notePart : Str
  headingPart : Option Str
  blockPart : Option Str
  displayPart : Option Str
deriving DecidableEq

/-- The part of `parseQuery` after the pipe split: splitting the link
target at the first `#` or `^`, whichever comes first (JS `indexOf`
returning -1 for absence is modelled by `List.findIdx?`). -/
def parseTarget (linkTarget : Str) (displayPart : Option Str) : ParsedQuery :=
  let hashIdx := linkTarget.findIdx? (fun c => c == '#')
  let caretIdx := linkTarget.findIdx? (fun c => c == '^')
  match hashIdx, caretIdx with
  | some hi, some ci =>
    if hi < ci then
      ⟨linkTarget.take hi, some (linkTarget.drop (hi + 1)), none, displayPart⟩
    else
      ⟨linkTarget.take ci, none, some (linkTarget.drop (ci + 1)), displayPart⟩
  | some hi, none =>
    ⟨linkTarget.take hi, some (linkTarget.drop (hi + 1)), none, displayPart⟩
  | none, some ci =>
    ⟨linkTarget.take ci, none, some (linkTarget.drop (ci + 1)), displayPart⟩
  | none, none => ⟨linkTarget, none, none, displayPart⟩

/-- `parseQuery` from query-parser.ts: split at the first `|` into link
target and display text, then split the link target at `#` / `^`. -/
def parseQuery (raw : Str) : ParsedQuery :=
  match raw.findIdx? (fun c => c == '|') with
  | some i => parseTarget (raw.take i) (some (raw.drop (i + 1)))
  | none => parseTarget raw none

/-- The first-occurrence decomposition properties of the link-target
phase that claim C5 asserts, for a link target `lt`. -/
def TargetSplitSpec (lt : Str) (p : ParsedQuery) : Prop :=
  (∀ a b : Str, lt = a ++ '#' :: b → '#' ∉ a → '^' ∉ a →
      p.notePart = a ∧ p.headingPart = some b ∧ p.blockPart = none)
  ∧ (∀ a b : Str, lt = a ++ '^' :: b → '^' ∉ a → '#' ∉ a →
      p.notePart = a ∧ p.blockPart = some b ∧ p.headingPart = none)
  ∧ (('#' : Char) ∉ lt → ('^' : Char) ∉ lt →
      p.notePart = lt ∧ p.headingPart = none ∧ p.blockPart = none)
/-- The delimiter text that the claim C10 re-attaches between notePart
and displayPart. -/
def middleText (p : ParsedQuery) : Str :=
  match p.headingPart with
  | some h => '#' :: h
  | none =>
    match p.blockPart with
    | some b => '^' :: b
    | none => []

/-- The display text that the claim C10 re-attaches at the end. -/
def displayText (p : ParsedQuery) : Str :=
  match p.displayPart with
  | some d => '|' :: d
  | none => []

/-! ### Notes index (notes-index.ts) -/

/-- `NoteInfo` from types.ts. -/
structure NoteInfo where
  path : Str
  title : Str
  aliases : List Str
deriving DecidableEq

/-- `SearchResult` from types.ts: the note plus the optional alias that
matched (absent is JS `undefined`). -/
structure SearchResult where
  note : NoteInfo
  matchedAlias : Option Str
deriving DecidableEq

/-- `NotesIndex.matchPrefix`: the last query token matches if it is a
literal prefix of a source token, a prefix of one of its stems, or its
own stem set meets a source token's stem set. -/
def matchPrefix (stem : Str → List Str) (lastToken : Str) (sourceTokens : List Str)
    (sourceStems : List (List Str)) : Bool :=
  sourceTokens.any (fun token => lastToken.isPrefixOf token)
  || sourceStems.any (fun stems => stems.any (fun st => lastToken.isPrefixOf st))
  || sourceStems.any (fun stems => stems.any (fun sourceStem =>
       (stem lastToken).any (fun lastStem => sourceStem == lastStem)))

/-- The full-token matching loop of `NotesIndex.scoreSource`: how many
of the non-last query stem sets intersect some source token's stem set. -/
def fullMatchCount (fullQueryStems : List (List Str)) (sourceStems : List (List Str)) : ℕ :=
  (fullQueryStems.filter (fun queryStems =>
    sourceStems.any (fun stems => stems.any (fun s => queryStems.contains s)))).length

/-- `NotesIndex.scoreSource` with JS numbers modelled as rationals. -/
def scoreSource (stem : Str → List Str) (sourceText : Str)
    (fullQueryStems : List (List Str)) (lastToken : Str) (isTitle : Bool) : ℚ :=
  let sourceTokens := tokenize sourceText
  if sourceTokens.length = 0 then 0
  else
    let sourceStems := sourceTokens.map stem
    let fullMatches := fullMatchCount fullQueryStems sourceStems
    let lastMatches := matchPrefix stem lastToken sourceTokens sourceStems
    let matchedWords := fullMatches + (if lastMatches then 1 else 0)
    if matchedWords = 0 then 0
    else
      let totalQueryWords := fullQueryStems.length + 1
      let queryMatchRatio : ℚ := (matchedWords : ℚ) / (totalQueryWords : ℚ)
      let sourceMatchRatio : ℚ :=
        ((min matchedWords sourceTokens.length : ℕ) : ℚ) / (sourceTokens.length : ℚ)
      let titleBonus : ℚ := if isTitle then 0.1 else 0
      queryMatchRatio * 0.5 + sourceMatchRatio * 0.4 + titleBonus

/-- `NotesIndex.scoreNote`: best score over the title and all aliases,
starting from 0, updated only on strict improvement. -/
def scoreNote (stem : Str → List Str) (note : NoteInfo)
    (fullQueryStems : List (List Str)) (lastToken : Str) : ℚ :=
  ((note.title, true) :: note.aliases.map (fun a => (a, false))).foldl
    (fun bestScore src =>
      let score := scoreSource stem src.1 fullQueryStems lastToken src.2
      if bestScore < score then score else bestScore) 0

instance decidableRelSndLe {α β : Type} [LinearOrder β] :
    DecidableRel (fun a b : α × β => b.2 ≤ a.2) :=
  fun a b => inferInstanceAs (Decidable (b.2 ≤ a.2))

instance isTotalSndLe {α β : Type} [LinearOrder β] :
    IsTotal (α × β) (fun a b => b.2 ≤ a.2) :=
  ⟨fun a b => le_total b.2 a.2⟩

instance isTransSndLe {α β : Type} [LinearOrder β] :
    IsTrans (α × β) (fun a b => b.2 ≤ a.2) :=
  ⟨fun _ _ _ hab hbc => le_trans hbc hab⟩

/-- The loop body of `NotesIndex.search`: push `{note, score}` when the
note's best score is strictly positive, skip it otherwise. -/
def scoreEntry (stem : Str → List Str) (fullQueryStems : List (List Str)) (lastToken : Str)
    (note : NoteInfo) : Option (NoteInfo × ℚ) :=
  let bestScore := scoreNote stem note fullQueryStems lastToken
  if 0 < bestScore then some (note, bestScore) else none

/-- `NotesIndex.search`: tokenize the query, score every note, keep the
strictly positive ones, sort by descending score (JS stable sort with
comparator `b.score - a.score`, modelled by stable insertion sort), and
return the notes.  The implementation returns objects with only the
`note` field, so `matchedAlias` is always absent. -/
def search (stem : Str → List Str) (notes : List NoteInfo) (query : Str) : List SearchResult :=
  let queryTokens := tokenize query
  if queryTokens.length = 0 then []
  else
    let lastToken := queryTokens.getLastD []
    let fullQueryStems := queryTokens.dropLast.map stem
    let scored := notes.filterMap (scoreEntry stem fullQueryStems lastToken)
    let sorted := List.insertionSort (fun a b => b.2 ≤ a.2) scored
    sorted.map (fun s => ⟨s.1, none⟩)

/-! ### Recent notes (recent-notes.ts) -/

/-- `MAX_RECENT_COUNT` from recent-notes.ts. -/
def MAX_RECENT_COUNT : ℕ := 1000

/-- `MAX_BOOST_COUNT` from recent-notes.ts. -/
def MAX_BOOST_COUNT : ℕ := 3

/-- The recency ledger: a JS `Map` of title to timestamp, modelled as an
association list in insertion order. -/
abbrev Ledger := List (Str × ℤ)

/-- `Map.get`: the timestamp stored for a title, if any. -/
def lookupTs (entries : Ledger) (title : Str) : Option ℤ :=
  (entries.find? (fun p => p.1 == title)).map (fun p => p.2)

/-- `Map.set`: update in place when the key exists (JS Maps keep the
original insertion position), append otherwise. -/
def mapSet (entries : Ledger) (title : Str) (ts : ℤ) : Ledger :=
  if entries.any (fun p => p.1 == title) then
    entries.map (fun p => if p.1 == title then (title, ts) else p)
  else entries ++ [(title, ts)]

/-- `RecentNotes.prune`: keep only the `MAX_RECENT_COUNT` entries with
the largest timestamps (stable sort descending, then truncate). -/
def prune (entries : Ledger) : Ledger :=
  if entries.length ≤ MAX_RECENT_COUNT then entries
  else (List.insertionSort (fun a b : Str × ℤ => b.2 ≤ a.2) entries).take MAX_RECENT_COUNT

/-- `RecentNotes.record`: upsert the title with the current timestamp
(injected for determinism) and prune. -/
def record (entries : Ledger) (title : Str) (now : ℤ) : Ledger :=
  prune (mapSet entries title now)

/-- The hit-collecting loop of `RecentNotes.boostRecent`: the
`(index, timestamp)` pairs of the items whose title is in the ledger,
in index order starting from `i`. -/
def collectHits {T : Type} (entries : Ledger) (getTitle : T → Str) :
    ℕ → List T → List (ℕ × ℤ)
  | _, [] => []
  | i, x :: xs =>
    match lookupTs entries (getTitle x) with
    | some ts => (i, ts) :: collectHits entries getTitle (i + 1) xs
    | none => collectHits entries getTitle (i + 1) xs

/-- The `results.filter((_, i) => !boostedIndices.has(i))` step of
`boostRecent`: drop the items whose index is in `idxs`. -/
def removeIdx {T : Type} (idxs : List ℕ) : ℕ → List T → List T
  | _, [] => []
  | i, x :: xs =>
    if idxs.contains i then removeIdx idxs (i + 1) xs
    else x :: removeIdx idxs (i + 1) xs

/-- `RecentNotes.boostRecent`: if no item's title is in the ledger,
return the list unchanged; otherwise sort the hits by timestamp
descending (stable), take the first `count`, emit the corresponding
items first and every other item afterwards in original order. -/
def boostRecent {T : Type} (entries : Ledger) (items : List T) (getTitle : T → Str)
    (count : ℕ) : List T :=
  let hits := collectHits entries getTitle 0 items
  if hits.length = 0 then items
  else
    let sorted := List.insertionSort (fun a b : ℕ × ℤ => b.2 ≤ a.2) hits
    let boosted := sorted.take count
    let boostedIdx := boosted.map (fun h => h.1)
    boosted.filterMap (fun h => items.get? h.1) ++ removeIdx boostedIdx 0 items

/-- A concrete full ledger (1000 distinct titles with distinct
timestamps) used to witness the capacity claims. -/
def bigLedger : Ledger :=
  (List.range MAX_RECENT_COUNT).map (fun i => (List.replicate i 'a', (i : ℤ)))

lemma yoChar_idem (c : Char) : yoChar (yoChar c) = yoChar c := by
  by_cases h1 : c = 'ё'
  · subst h1; decide
  · by_cases h2 : c = 'Ё'
    · subst h2; decide
    · have h : yoChar c = c := by simp [yoChar, h1, h2]
      rw [h, h]

lemma normalizeYo_idem (w : Str) : normalizeYo (normalizeYo w) = normalizeYo w := by
  unfold normalizeYo
  rw [List.map_map]
  exact List.map_congr_left (fun c _ => yoChar_idem c)

lemma yeSubstituted_eq_normalizeYo (w : Str) : yeSubstituted w = normalizeYo w := rfl

/-- C8: for every input word, `RussianStemmer.stem` applied to the word
equals `RussianStemmer.stem` applied to the same word with every ё
replaced by е (and every Ё by Е), for any underlying Snowball stemming
function. -/
theorem russianStem_yo_equal (snowball : Str → Str) (w : Str) :
    russianStem snowball w = russianStem snowball (yeSubstituted w) := by
  unfold russianStem
  rw [yeSubstituted_eq_normalizeYo, normalizeYo_idem]
lemma findIdx?_eq_none_of_not_mem {c : Char} {l : Str} (h : c ∉ l) :
    l.findIdx? (fun x => x == c) = none := by
  rw [List.findIdx?_eq_none_iff]
  intro x hx
  simp only [beq_eq_false_iff_ne, ne_eq]
  intro he
  exact h (he ▸ hx)

lemma findIdx?_append_cons (c : Char) (a b : Str) (h : c ∉ a) :
    (a ++ c :: b).findIdx? (fun x => x == c) = some a.length := by
  induction a with
  | nil => simp [List.findIdx?_cons]
  | cons x xs ih =>
    have hx : x ≠ c := fun he => h (he ▸ List.mem_cons_self x xs)
    have hxs : c ∉ xs := fun hm => h (List.mem_cons_of_mem x hm)
    have hbeq : (x == c) = false := beq_eq_false_iff_ne.mpr hx
    simp only [List.cons_append, List.findIdx?_cons, hbeq, if_false]
    rw [List.findIdx?_succ, ih hxs]
    simp [List.length_cons]

lemma findIdx?_some_gt {c d : Char} (a b : Str) (hne : c ≠ d) (h : c ∉ a) {k : ℕ}
    (hk : (a ++ d :: b).findIdx? (fun x => x == c) = some k) : a.length < k := by
  induction a generalizing k with
  | nil =>
    have hbeq : (d == c) = false := beq_eq_false_iff_ne.mpr (fun he => hne (he ▸ rfl))
    simp only [List.nil_append, List.findIdx?_cons, hbeq, Bool.false_eq_true, if_false,
      List.findIdx?_succ] at hk
    rcases Option.map_eq_some'.mp hk with ⟨j, _, hj⟩
    simp [← hj]
  | cons x xs ih =>
    by_cases hx : x = c
    · exact absurd (hx ▸ List.mem_cons_self x xs) h
    · have hxs : c ∉ xs := fun hm => h (List.mem_cons_of_mem x hm)
      have hbeq : (x == c) = false := beq_eq_false_iff_ne.mpr hx
      simp only [List.cons_append, List.findIdx?_cons, hbeq, if_false,
        List.findIdx?_succ] at hk
      rcases Option.map_eq_some'.mp hk with ⟨j, hj, hjk⟩
      have := ih hxs hj
      simp only [List.length_cons, ← hjk]
      omega

lemma take_of_append_cons (c : Char) (a b : Str) :
    (a ++ c :: b).take a.length = a :=
  List.take_left a (c :: b)

lemma drop_of_append_cons (c : Char) (a b : Str) :
    (a ++ c :: b).drop (a.length + 1) = b := by
  have h : (a ++ c :: b).drop a.length = c :: b := List.drop_left a (c :: b)
  have h2 : (a ++ c :: b).drop (a.length + 1) = ((a ++ c :: b).drop a.length).drop 1 := by
    rw [List.drop_drop, Nat.add_comm]
  rw [h2, h, List.drop_one, List.tail_cons]

lemma parseTarget_spec (lt : Str) (dp : Option Str) :
    TargetSplitSpec lt (parseTarget lt dp) ∧ (parseTarget lt dp).displayPart = dp := by
  constructor
  · refine ⟨?_, ?_, ?_⟩
    · intro a b hlt ha hc
      subst hlt
      have hh : ((a ++ '#' :: b).findIdx? (fun c => c == '#')) = some a.length :=
        findIdx?_append_cons '#' a b ha
      unfold parseTarget
      cases hcar : (a ++ '#' :: b).findIdx? (fun c => c == '^') with
      | none =>
        simp only [hh, hcar]
        exact ⟨take_of_append_cons '#' a b, by rw [drop_of_append_cons], trivial⟩
      | some ci =>
        have hci : a.length < ci := findIdx?_some_gt a b (by decide) hc hcar
        simp only [hh, hcar, if_pos hci]
        exact ⟨take_of_append_cons '#' a b, by rw [drop_of_append_cons], trivial⟩
    · intro a b hlt hc ha
      subst hlt
      have hh : ((a ++ '^' :: b).findIdx? (fun c => c == '^')) = some a.length :=
        findIdx?_append_cons '^' a b hc
      unfold parseTarget
      cases hhash : (a ++ '^' :: b).findIdx? (fun c => c == '#') with
      | none =>
        simp only [hh, hhash]
        exact ⟨take_of_append_cons '^' a b, by rw [drop_of_append_cons], trivial⟩
      | some hi =>
        have hhi : a.length < hi := findIdx?_some_gt a b (by decide) ha hhash
        have hnotlt : ¬ hi < a.length := by omega
        simp only [hh, hhash, if_neg hnotlt]
        exact ⟨take_of_append_cons '^' a b, by rw [drop_of_append_cons], trivial⟩
    · intro hh hc
      unfold parseTarget
      rw [findIdx?_eq_none_of_not_mem hh, findIdx?_eq_none_of_not_mem hc]
      exact ⟨rfl, rfl, rfl⟩
  · unfold parseTarget
    cases hhash : lt.findIdx? (fun c => c == '#') with
    | none =>
      cases hcar : lt.findIdx? (fun c => c == '^') <;> simp
    | some hi =>
      cases hcar : lt.findIdx? (fun c => c == '^') with
      | none => simp
      | some ci =>
        by_cases hlt : hi < ci
        · simp [hlt]
        · simp [hlt]

/-- C5: `parseQuery` splits at the first `|` (text after it, even empty,
becomes `displayPart` and is never scanned for `#`/`^`; with no `|`,
`displayPart` is absent); within the link target, a first `#` not
preceded by `^` splits into notePart/headingPart, otherwise a first `^`
splits into notePart/blockPart, otherwise the whole target is notePart. -/
theorem parseQuery_split_spec (raw : Str) :
    (('|' : Char) ∉ raw →
        (parseQuery raw).displayPart = none ∧ TargetSplitSpec raw (parseQuery raw))
    ∧ (∀ pre post : Str, raw = pre ++ '|' :: post → ('|' : Char) ∉ pre →
        (parseQuery raw).displayPart = some post ∧ TargetSplitSpec pre (parseQuery raw)) := by
  constructor
  · intro h
    unfold parseQuery
    rw [findIdx?_eq_none_of_not_mem h]
    exact ⟨(parseTarget_spec raw none).2, (parseTarget_spec raw none).1⟩
  · intro pre post hraw hpre
    subst hraw
    have he : parseQuery (pre ++ '|' :: post) = parseTarget pre (some post) := by
      unfold parseQuery
      rw [findIdx?_append_cons '|' pre post hpre]
      show parseTarget ((pre ++ '|' :: post).take pre.length)
          (some ((pre ++ '|' :: post).drop (pre.length + 1))) = parseTarget pre (some post)
      rw [take_of_append_cons, drop_of_append_cons]
    rw [he]
    exact ⟨(parseTarget_spec pre (some post)).2, (parseTarget_spec pre (some post)).1⟩

/-- Witness for C5 at the concrete inputs `"a#h"` (no pipe) and
`"a#h|d"` (pipe present). -/
theorem parseQuery_split_spec_witness :
    ((parseQuery ['a', '#', 'h']).displayPart = none
      ∧ TargetSplitSpec ['a', '#', 'h'] (parseQuery ['a', '#', 'h']))
    ∧ ((parseQuery ['a', '#', 'h', '|', 'd']).displayPart = some ['d']
      ∧ TargetSplitSpec ['a', '#', 'h'] (parseQuery ['a', '#', 'h', '|', 'd'])) :=
  ⟨(parseQuery_split_spec ['a', '#', 'h']).1 (by decide),
   (parseQuery_split_spec ['a', '#', 'h', '|', 'd']).2 ['a', '#', 'h'] ['d'] (by decide)
     (by decide)⟩

lemma findIdx?_some_decomp {c : Char} {l : Str} {k : ℕ}
    (h : l.findIdx? (fun x => x == c) = some k) :
    l.take k ++ c :: l.drop (k + 1) = l := by
  induction l generalizing k with
  | nil => simp [List.findIdx?_nil] at h
  | cons x xs ih =>
    by_cases hx : (x == c) = true
    · have hxc : x = c := eq_of_beq hx
      rw [List.findIdx?_cons, hx, if_pos rfl] at h
      have hk : k = 0 := by simpa using (Option.some_inj.mp h).symm
      subst hk
      simp [hxc]
    · rw [List.findIdx?_cons, if_neg hx] at h
      rw [List.findIdx?_succ] at h
      rcases Option.map_eq_some'.mp h with ⟨j, hj, hjk⟩
      subst hjk
      have := ih hj
      simp only [List.take_succ_cons, List.drop_succ_cons, List.cons_append]
      exact congrArg (x :: ·) this
lemma parseTarget_roundtrip (lt : Str) (dp : Option Str) :
    (parseTarget lt dp).notePart ++ middleText (parseTarget lt dp) = lt := by
  unfold parseTarget
  cases hhash : lt.findIdx? (fun c => c == '#') with
  | none =>
    cases hcar : lt.findIdx? (fun c => c == '^') with
    | none => simp [middleText]
    | some ci =>
      simp only [middleText]
      exact findIdx?_some_decomp hcar
  | some hi =>
    cases hcar : lt.findIdx? (fun c => c == '^') with
    | none =>
      simp only [middleText]
      exact findIdx?_some_decomp hhash
    | some ci =>
      by_cases hlt : hi < ci
      · simp only [if_pos hlt, middleText]
        exact findIdx?_some_decomp hhash
      · simp only [if_neg hlt, middleText]
        exact findIdx?_some_decomp hcar

/-- C10: `parseQuery` is lossless — concatenating notePart, then `#` plus
headingPart (or `^` plus blockPart) when present, then `|` plus
displayPart when present, reproduces the raw input exactly. -/
theorem parseQuery_roundtrip (raw : Str) :
    (parseQuery raw).notePart ++ middleText (parseQuery raw)
      ++ displayText (parseQuery raw) = raw := by
  unfold parseQuery
  cases hpipe : raw.findIdx? (fun c => c == '|') with
  | none =>
    have hd : (parseTarget raw none).displayPart = none := (parseTarget_spec raw none).2
    have hr := parseTarget_roundtrip raw none
    rw [List.append_assoc]
    simp only [displayText, hd]
    simpa using hr
  | some i =>
    have hd : (parseTarget (raw.take i) (some (raw.drop (i + 1)))).displayPart
        = some (raw.drop (i + 1)) := (parseTarget_spec _ _).2
    have hr := parseTarget_roundtrip (raw.take i) (some (raw.drop (i + 1)))
    rw [List.append_assoc]
    simp only [displayText, hd]
    rw [← List.append_assoc, hr]
    exact findIdx?_some_decomp hpipe

lemma isPrefixOf_true_iff {a b : Str} : a.isPrefixOf b = true ↔ a <+: b :=
  List.isPrefixOf_iff_prefix

/-- C3: the trailing query token counts as matched against a source iff
it is a literal prefix of some source token, or a prefix of some stem of
a source token, or its own stem set intersects some source token's stem
set. -/
theorem matchPrefix_characterization (stem : Str → List Str) (lastToken : Str)
    (sourceText : Str) :
    matchPrefix stem lastToken (tokenize sourceText) ((tokenize sourceText).map stem) = true
      ↔ ((∃ t ∈ tokenize sourceText, lastToken <+: t)
        ∨ (∃ t ∈ tokenize sourceText, ∃ st ∈ stem t, lastToken <+: st)
        ∨ (∃ t ∈ tokenize sourceText, ∃ st ∈ stem t, st ∈ stem lastToken)) := by
  unfold matchPrefix
  simp only [Bool.or_eq_true, List.any_eq_true, List.mem_map, isPrefixOf_true_iff,
    beq_iff_eq, exists_exists_and_eq_and]
  constructor
  · rintro ((h | h) | h)
    · exact Or.inl h
    · exact Or.inr (Or.inl h)
    · rcases h with ⟨t, ht, st, hst, ls, hls, he⟩
      exact Or.inr (Or.inr ⟨t, ht, st, hst, he ▸ hls⟩)
  · rintro (h | h | h)
    · exact Or.inl (Or.inl h)
    · exact Or.inl (Or.inr h)
    · rcases h with ⟨t, ht, st, hst, hmem⟩
      exact Or.inr ⟨t, ht, st, hst, st, hmem, rfl⟩

/-- C2: when the source tokenizes to at least one token and at least one
query word matched, the source score is
`0.5 * (matchedWords / totalQueryWords)
 + 0.4 * (min(matchedWords, sourceTokenCount) / sourceTokenCount)
 + (0.1 if title)`; when no query word matched, the score is 0. -/
theorem scoreSource_formula (stem : Str → List Str) (sourceText : Str)
    (fullQueryStems : List (List Str)) (lastToken : Str) (isTitle : Bool) :
    ((tokenize sourceText ≠ []) →
      (1 ≤ fullMatchCount fullQueryStems ((tokenize sourceText).map stem)
          + (if matchPrefix stem lastToken (tokenize sourceText)
                ((tokenize sourceText).map stem) then 1 else 0)) →
      scoreSource stem sourceText fullQueryStems lastToken isTitle
        = 0.5 * (((fullMatchCount fullQueryStems ((tokenize sourceText).map stem)
              + (if matchPrefix stem lastToken (tokenize sourceText)
                    ((tokenize sourceText).map stem) then 1 else 0) : ℕ) : ℚ)
            / ((fullQueryStems.length + 1 : ℕ) : ℚ))
          + 0.4 * (((min (fullMatchCount fullQueryStems ((tokenize sourceText).map stem)
                + (if matchPrefix stem lastToken (tokenize sourceText)
                      ((tokenize sourceText).map stem) then 1 else 0))
                (tokenize sourceText).length : ℕ) : ℚ)
            / (((tokenize sourceText).length : ℕ) : ℚ))
          + (if isTitle then 0.1 else 0))
    ∧ ((fullMatchCount fullQueryStems ((tokenize sourceText).map stem)
          + (if matchPrefix stem lastToken (tokenize sourceText)
                ((tokenize sourceText).map stem) then 1 else 0) = 0) →
      scoreSource stem sourceText fullQueryStems lastToken isTitle = 0) := by
  constructor
  · intro h1 h2
    simp only [scoreSource]
    rw [if_neg (fun hl => h1 (List.length_eq_zero.mp hl))]
    rw [if_neg (by omega)]
    push_cast
    ring
  · intro h0
    simp only [scoreSource]
    by_cases hlen : (tokenize sourceText).length = 0
    · rw [if_pos hlen]
    · rw [if_neg hlen, if_pos h0]

/-- Witness for C2 at a one-word query against a one-token title
(matched case, score 1) and an unmatched query (score 0). -/
theorem scoreSource_formula_witness :
    (tokenize ['a'] ≠ []
      ∧ scoreSource (fun w : Str => [w]) ['a'] [] ['a'] true = 1)
    ∧ scoreSource (fun w : Str => [w]) ['a'] [] ['z'] true = 0 := by
  refine ⟨⟨by decide, ?_⟩, ?_⟩
  · rw [(scoreSource_formula (fun w : Str => [w]) ['a'] [] ['a'] true).1 (by decide)
      (by decide)]
    have h1 : fullMatchCount [] ((tokenize ['a']).map (fun w : Str => [w])) = 0 := by decide
    have h2 : matchPrefix (fun w : Str => [w]) ['a'] (tokenize ['a'])
        ((tokenize ['a']).map (fun w : Str => [w])) = true := by decide
    have h3 : (tokenize ['a']).length = 1 := by decide
    rw [h1, h2, h3]
    norm_num
  · exact (scoreSource_formula (fun w : Str => [w]) ['a'] [] ['z'] true).2 (by decide)

lemma scoreEntry_mem_spec {stem : Str → List Str} {fq : List (List Str)} {lt : Str}
    {notes : List NoteInfo} {s : NoteInfo × ℚ}
    (hs : s ∈ notes.filterMap (scoreEntry stem fq lt)) :
    s.1 ∈ notes ∧ s.2 = scoreNote stem s.1 fq lt := by
  rcases List.mem_filterMap.mp hs with ⟨note, hnote, hf⟩
  unfold scoreEntry at hf
  by_cases h : 0 < scoreNote stem note fq lt
  · rw [if_pos h] at hf
    have he := Option.some_inj.mp hf
    subst he
    exact ⟨hnote, rfl⟩
  · rw [if_neg h] at hf
    exact absurd hf (by simp)

lemma scored_fst_sublist (stem : Str → List Str) (fq : List (List Str)) (lt : Str)
    (notes : List NoteInfo) :
    ((notes.filterMap (scoreEntry stem fq lt)).map Prod.fst).Sublist notes := by
  induction notes with
  | nil => simp
  | cons a as ih =>
    rw [List.filterMap_cons]
    unfold scoreEntry
    by_cases h : 0 < scoreNote stem a fq lt
    · rw [if_pos h]
      simpa using ih.cons₂ a
    · rw [if_neg h]
      exact ih.cons a

lemma search_eq_of_tokens (stem : Str → List Str) (notes : List NoteInfo) (query : Str)
    (h : ¬ (tokenize query).length = 0) :
    search stem notes query
      = (List.insertionSort (fun a b => b.2 ≤ a.2)
          (notes.filterMap (scoreEntry stem ((tokenize query).dropLast.map stem)
            ((tokenize query).getLastD [])))).map (fun s => ⟨s.1, none⟩) := by
  simp only [search]
  rw [if_neg h]

/-- C7: `NotesIndex.search` is a total function that returns the empty
list (not an error or sentinel) for a token-less query, for an empty
corpus, and when no note scores above zero. -/
theorem search_degenerate (stem : Str → List Str) (notes : List NoteInfo) (query : Str) :
    (tokenize query = [] → search stem notes query = [])
    ∧ search stem [] query = []
    ∧ ((∀ note ∈ notes,
          scoreNote stem note ((tokenize query).dropLast.map stem)
            ((tokenize query).getLastD []) = 0) →
        search stem notes query = []) := by
  refine ⟨?_, ?_, ?_⟩
  · intro h
    simp only [search]
    rw [if_pos (by simp [h])]
  · by_cases h : (tokenize query).length = 0
    · simp only [search]
      rw [if_pos h]
    · rw [search_eq_of_tokens stem [] query h]
      simp
  · intro hall
    by_cases h : (tokenize query).length = 0
    · simp only [search]
      rw [if_pos h]
    · rw [search_eq_of_tokens stem notes query h]
      have hfm : notes.filterMap (scoreEntry stem ((tokenize query).dropLast.map stem)
          ((tokenize query).getLastD [])) = [] := by
        rw [List.filterMap_eq_nil_iff]
        intro note hnote
        unfold scoreEntry
        rw [hall note hnote]
        norm_num
      rw [hfm]
      simp

/-- C9: every result's note is drawn from the corpus; with a
duplicate-free corpus each note appears at most once; and results are
ordered by non-increasing recomputed score. -/
theorem search_invariants (stem : Str → List Str) (notes : List NoteInfo) (query : Str) :
    (∀ r ∈ search stem notes query, r.note ∈ notes)
    ∧ (notes.Nodup → ((search stem notes query).map (fun r => r.note)).Nodup)
    ∧ (search stem notes query).Pairwise (fun a b =>
        scoreNote stem b.note ((tokenize query).dropLast.map stem)
            ((tokenize query).getLastD [])
          ≤ scoreNote stem a.note ((tokenize query).dropLast.map stem)
            ((tokenize query).getLastD [])) := by
  by_cases h : (tokenize query).length = 0
  · have hs : search stem notes query = [] := by
      simp only [search]
      rw [if_pos h]
    refine ⟨?_, ?_, ?_⟩ <;> simp [hs]
  · rw [search_eq_of_tokens stem notes query h]
    refine ⟨?_, ?_, ?_⟩
    · intro r hr
      rcases List.mem_map.mp hr with ⟨s, hsmem, hsr⟩
      have hss := (List.mem_insertionSort _).mp hsmem
      have := (scoreEntry_mem_spec hss).1
      rw [← hsr]
      exact this
    · intro hnd
      rw [List.map_map]
      have hcmp : ((fun r : SearchResult => r.note)
          ∘ (fun s : NoteInfo × ℚ => (⟨s.1, none⟩ : SearchResult))) = Prod.fst := rfl
      rw [hcmp]
      have hperm := (List.perm_insertionSort (fun a b : NoteInfo × ℚ => b.2 ≤ a.2)
        (notes.filterMap (scoreEntry stem ((tokenize query).dropLast.map stem)
          ((tokenize query).getLastD [])))).map Prod.fst
      exact hperm.nodup_iff.mpr
        ((scored_fst_sublist stem _ _ notes).nodup hnd)
    · have hsorted := List.sorted_insertionSort (fun a b : NoteInfo × ℚ => b.2 ≤ a.2)
        (notes.filterMap (scoreEntry stem ((tokenize query).dropLast.map stem)
          ((tokenize query).getLastD [])))
      refine List.pairwise_map.mpr (List.Pairwise.imp_of_mem ?_ hsorted)
      intro a b ha hb hab
      have ha2 := (scoreEntry_mem_spec ((List.mem_insertionSort _).mp ha)).2
      have hb2 := (scoreEntry_mem_spec ((List.mem_insertionSort _).mp hb)).2
      show scoreNote stem b.1 _ _ ≤ scoreNote stem a.1 _ _
      rw [← ha2, ← hb2]
      exact hab

/-- Witness for C7: a whitespace-only query and an unmatched query on a
one-note corpus both return the empty list. -/
theorem search_degenerate_witness :
    search (fun w : Str => [w]) [⟨['p'], ['a'], []⟩] [' '] = []
    ∧ search (fun w : Str => [w]) [⟨['p'], ['a'], []⟩] ['z'] = [] :=
  ⟨(search_degenerate (fun w : Str => [w]) [⟨['p'], ['a'], []⟩] [' ']).1 (by decide),
   (search_degenerate (fun w : Str => [w]) [⟨['p'], ['a'], []⟩] ['z']).2.2 (by decide)⟩

/-- Witness for C9: the nodup clause at a concrete one-note corpus. -/
theorem search_invariants_witness :
    ((search (fun w : Str => [w]) [⟨['p'], ['a'], []⟩] ['a']).map (fun r => r.note)).Nodup :=
  (search_invariants (fun w : Str => [w]) [⟨['p'], ['a'], []⟩] ['a']).2.1 (by decide)

lemma scoreSource_alias_a : scoreSource (fun w : Str => [w]) ['a'] [] ['a'] false
    = 0.9 := by
  simp only [scoreSource]
  rw [show tokenize ['a'] = [['a']] from by decide]
  rw [show matchPrefix (fun w : Str => [w]) ['a'] [['a']] ([['a']].map (fun w : Str => [w]))
      = true from by decide]
  norm_num [fullMatchCount]

lemma scoreSource_title_z : scoreSource (fun w : Str => [w]) ['z'] [] ['a'] true
    = 0 := by
  simp only [scoreSource]
  rw [show tokenize ['z'] = [['z']] from by decide]
  rw [show matchPrefix (fun w : Str => [w]) ['a'] [['z']] ([['z']].map (fun w : Str => [w]))
      = false from by decide]
  norm_num [fullMatchCount]

lemma scoreNote_alias_note :
    scoreNote (fun w : Str => [w]) ⟨['p'], ['z'], [['a']]⟩ [] ['a'] = 0.9 := by
  simp only [scoreNote, List.map_cons, List.map_nil, List.foldl_cons, List.foldl_nil]
  rw [scoreSource_title_z, scoreSource_alias_a]
  norm_num

/-- C1 (refuted by the code): `NotesIndex.search` returns every result
with `matchedAlias` absent, even when the winning score came from an
alias.  For the note titled "z" with alias "a" and query "a", the alias
scores 0.9 while the title scores 0, yet the result carries no
`matchedAlias` — contradicting the spec and the repository's own tests
(tests/search/notes-index.test.ts expects the matching alias here). -/
theorem search_drops_matchedAlias :
    search (fun w : Str => [w]) [⟨['p'], ['z'], [['a']]⟩] ['a']
      = [⟨⟨['p'], ['z'], [['a']]⟩, none⟩]
    ∧ scoreSource (fun w : Str => [w]) ['z'] [] ['a'] true
        < scoreSource (fun w : Str => [w]) ['a'] [] ['a'] false := by
  constructor
  · rw [search_eq_of_tokens (fun w : Str => [w]) [⟨['p'], ['z'], [['a']]⟩] ['a']
      (by decide)]
    rw [show tokenize ['a'] = [['a']] from by decide]
    have hfm : [(⟨['p'], ['z'], [['a']]⟩ : NoteInfo)].filterMap
        (scoreEntry (fun w : Str => [w]) ([['a']].dropLast.map (fun w : Str => [w]))
          ([['a']].getLastD [])) = [(⟨['p'], ['z'], [['a']]⟩, 0.9)] := by
      have hentry : scoreEntry (fun w : Str => [w]) ([['a']].dropLast.map (fun w : Str => [w]))
          ([['a']].getLastD []) ⟨['p'], ['z'], [['a']]⟩
          = some (⟨['p'], ['z'], [['a']]⟩, 0.9) := by
        show scoreEntry (fun w : Str => [w]) [] ['a'] ⟨['p'], ['z'], [['a']]⟩ = _
        simp only [scoreEntry, scoreNote_alias_note]
        norm_num
      rw [List.filterMap_cons, hentry]
      rfl
    rw [hfm]
    simp [List.insertionSort]
  · rw [scoreSource_title_z, scoreSource_alias_a]
    norm_num

lemma collectHits_eq_nil_iff {T : Type} (entries : Ledger) (getTitle : T → Str) (i : ℕ)
    (items : List T) :
    collectHits entries getTitle i items = []
      ↔ ∀ x ∈ items, lookupTs entries (getTitle x) = none := by
  induction items generalizing i with
  | nil => simp [collectHits]
  | cons x xs ih =>
    simp only [collectHits]
    cases h : lookupTs entries (getTitle x) with
    | some ts => simp [h]
    | none => simp [h, ih]

/-- C4: if no item's title is in the ledger, `boostRecent` returns the
items unchanged; otherwise there is a boosted list of hits — `count` of
them (or all, if fewer), each a hit, in non-increasing timestamp order,
with every non-boosted hit's timestamp at most every boosted one's —
such that the output is the boosted items followed by all remaining
items in their original relative order. -/
theorem boostRecent_spec {T : Type} (entries : Ledger) (items : List T) (getTitle : T → Str)
    (count : ℕ) :
    ((∀ x ∈ items, lookupTs entries (getTitle x) = none) →
        boostRecent entries items getTitle count = items)
    ∧ ((¬ ∀ x ∈ items, lookupTs entries (getTitle x) = none) →
        ∃ bh : List (ℕ × ℤ),
          bh.length = min count (collectHits entries getTitle 0 items).length
          ∧ (∀ h ∈ bh, h ∈ collectHits entries getTitle 0 items)
          ∧ bh.Pairwise (fun a b => b.2 ≤ a.2)
          ∧ (∀ h ∈ collectHits entries getTitle 0 items, h ∉ bh → ∀ b ∈ bh, h.2 ≤ b.2)
          ∧ boostRecent entries items getTitle count
              = bh.filterMap (fun h => items.get? h.1)
                ++ removeIdx (bh.map (fun h => h.1)) 0 items) := by
  constructor
  · intro hall
    have hnil : collectHits entries getTitle 0 items = [] :=
      (collectHits_eq_nil_iff entries getTitle 0 items).mpr hall
    simp only [boostRecent]
    rw [if_pos (by rw [hnil]; rfl)]
  · intro hsome
    have hne : collectHits entries getTitle 0 items ≠ [] := by
      intro hnil
      exact hsome ((collectHits_eq_nil_iff entries getTitle 0 items).mp hnil)
    have hlen : ¬ (collectHits entries getTitle 0 items).length = 0 := by
      simpa [List.length_eq_zero] using hne
    refine ⟨(List.insertionSort (fun a b : ℕ × ℤ => b.2 ≤ a.2)
        (collectHits entries getTitle 0 items)).take count, ?_, ?_, ?_, ?_, ?_⟩
    · rw [List.length_take]
      rw [(List.perm_insertionSort (fun a b : ℕ × ℤ => b.2 ≤ a.2)
        (collectHits entries getTitle 0 items)).length_eq]
    · intro h hh
      exact (List.mem_insertionSort _).mp ((List.take_sublist _ _).subset hh)
    · exact List.Pairwise.sublist (List.take_sublist _ _)
        (List.sorted_insertionSort _ _)
    · intro h hh hnotin b hb
      have hsorted := List.sorted_insertionSort (fun a b : ℕ × ℤ => b.2 ≤ a.2)
        (collectHits entries getTitle 0 items)
      rw [← List.take_append_drop count (List.insertionSort _ _)] at hsorted
      rcases List.pairwise_append.mp hsorted with ⟨_, _, hcross⟩
      have hmem : h ∈ List.insertionSort (fun a b : ℕ × ℤ => b.2 ≤ a.2)
          (collectHits entries getTitle 0 items) := (List.mem_insertionSort _).mpr hh
      rw [← List.take_append_drop count (List.insertionSort _ _)] at hmem
      rcases List.mem_append.mp hmem with hmem | hmem
      · exact absurd hmem hnotin
      · exact hcross b hb h hmem
    · simp only [boostRecent]
      rw [if_neg hlen]

/-- Witness for C4: an empty ledger leaves a one-item list unchanged,
and a ledger hit on a two-item list produces the boosted decomposition. -/
theorem boostRecent_spec_witness :
    boostRecent [] [['a']] (fun s => s) 3 = [['a']]
    ∧ ∃ bh : List (ℕ × ℤ),
        bh.length = min 3 (collectHits [(['a'], 5)] (fun s : Str => s) 0 [['a'], ['b']]).length
        ∧ (∀ h ∈ bh, h ∈ collectHits [(['a'], 5)] (fun s : Str => s) 0 [['a'], ['b']])
        ∧ bh.Pairwise (fun a b => b.2 ≤ a.2)
        ∧ (∀ h ∈ collectHits [(['a'], 5)] (fun s : Str => s) 0 [['a'], ['b']],
            h ∉ bh → ∀ b ∈ bh, h.2 ≤ b.2)
        ∧ boostRecent [(['a'], 5)] [['a'], ['b']] (fun s => s) 3
            = bh.filterMap (fun h => [['a'], ['b']].get? h.1)
              ++ removeIdx (bh.map (fun h => h.1)) 0 [['a'], ['b']] :=
  ⟨(boostRecent_spec [] [['a']] (fun s => s) 3).1 (by decide),
   (boostRecent_spec [(['a'], 5)] [['a'], ['b']] (fun s => s) 3).2 (by decide)⟩

/-- C6: after any `record` the ledger holds at most 1000 entries; when
pruning occurs (the upserted ledger exceeds 1000), exactly 1000 entries
are kept and every discarded entry's timestamp is at most every kept
entry's; recording a fresh title into a full 1000-entry ledger evicts
exactly one entry, of minimal timestamp. -/
theorem record_prune_spec (entries : Ledger) (title : Str) (now : ℤ) :
    (record entries title now).length ≤ MAX_RECENT_COUNT
    ∧ (MAX_RECENT_COUNT < (mapSet entries title now).length →
        (record entries title now).length = MAX_RECENT_COUNT
        ∧ ∃ dropped : Ledger,
            (mapSet entries title now).Perm (record entries title now ++ dropped)
            ∧ ∀ d ∈ dropped, ∀ k ∈ record entries title now, d.2 ≤ k.2)
    ∧ (entries.length = MAX_RECENT_COUNT →
        entries.any (fun p => p.1 == title) = false →
        ∃ evicted : Str × ℤ,
          (mapSet entries title now).Perm (evicted :: record entries title now)
          ∧ ∀ k ∈ record entries title now, evicted.2 ≤ k.2) := by
  have h2 : MAX_RECENT_COUNT < (mapSet entries title now).length →
      (record entries title now).length = MAX_RECENT_COUNT
      ∧ ∃ dropped : Ledger,
          (mapSet entries title now).Perm (record entries title now ++ dropped)
          ∧ ∀ d ∈ dropped, ∀ k ∈ record entries title now, d.2 ≤ k.2 := by
    intro hgt
    have hne : ¬ (mapSet entries title now).length ≤ MAX_RECENT_COUNT := by omega
    have hrec : record entries title now
        = (List.insertionSort (fun a b : Str × ℤ => b.2 ≤ a.2)
            (mapSet entries title now)).take MAX_RECENT_COUNT := by
      simp only [record, prune]
      rw [if_neg hne]
    have hslen : (List.insertionSort (fun a b : Str × ℤ => b.2 ≤ a.2)
        (mapSet entries title now)).length = (mapSet entries title now).length :=
      (List.perm_insertionSort _ _).length_eq
    refine ⟨?_, (List.insertionSort (fun a b : Str × ℤ => b.2 ≤ a.2)
        (mapSet entries title now)).drop MAX_RECENT_COUNT, ?_, ?_⟩
    · rw [hrec, List.length_take, hslen]
      omega
    · rw [hrec, List.take_append_drop]
      exact (List.perm_insertionSort _ _).symm
    · intro d hd k hk
      rw [hrec] at hk
      have hsorted := List.sorted_insertionSort (fun a b : Str × ℤ => b.2 ≤ a.2)
        (mapSet entries title now)
      rw [← List.take_append_drop MAX_RECENT_COUNT (List.insertionSort _ _)] at hsorted
      rcases List.pairwise_append.mp hsorted with ⟨_, _, hcross⟩
      exact hcross k hk d hd
  refine ⟨?_, h2, ?_⟩
  · simp only [record, prune]
    by_cases h : (mapSet entries title now).length ≤ MAX_RECENT_COUNT
    · rw [if_pos h]
      exact h
    · rw [if_neg h, List.length_take]
      exact min_le_left _ _
  · intro hlen hfresh
    have hafter : mapSet entries title now = entries ++ [(title, now)] := by
      simp only [mapSet, hfresh]
      rfl
    have hgt : MAX_RECENT_COUNT < (mapSet entries title now).length := by
      rw [hafter]
      simp [hlen]
    obtain ⟨hreclen, dropped, hperm, hthresh⟩ := h2 hgt
    have hdlen : dropped.length = 1 := by
      have hl := hperm.length_eq
      rw [hafter] at hl
      simp only [List.length_append, List.length_singleton] at hl
      omega
    obtain ⟨d, hd⟩ := List.length_eq_one.mp hdlen
    subst hd
    refine ⟨d, ?_, ?_⟩
    · exact hperm.trans (List.perm_append_singleton d _)
    · intro k hk
      exact hthresh d (List.mem_singleton_self d) k hk

set_option maxRecDepth 100000 in
/-- Witness for C6: recording a fresh title into the full 1000-entry
`bigLedger` prunes to 1000 entries and evicts a single oldest entry. -/
theorem record_prune_spec_witness :
    ((record bigLedger ['b'] 5000).length = MAX_RECENT_COUNT
      ∧ ∃ dropped : Ledger,
          (mapSet bigLedger ['b'] 5000).Perm (record bigLedger ['b'] 5000 ++ dropped)
          ∧ ∀ d ∈ dropped, ∀ k ∈ record bigLedger ['b'] 5000, d.2 ≤ k.2)
    ∧ ∃ evicted : Str × ℤ,
        (mapSet bigLedger ['b'] 5000).Perm (evicted :: record bigLedger ['b'] 5000)
        ∧ ∀ k ∈ record bigLedger ['b'] 5000, evicted.2 ≤ k.2 :=
  ⟨(record_prune_spec bigLedger ['b'] 5000).2.1 (by decide),
   (record_prune_spec bigLedger ['b'] 5000).2.2 (by decide) (by decide)⟩
